import Mathlib

/-!
Shallow embedding of the amazon-image-renamer application core
(src/src/App.jsx): filename formatting, the 10-slot store with its
add/remove/swap operations, and the two export strategies with their
manual-link fallback bookkeeping.  Strings are modelled as Lean strings
over their character lists; asynchronous browser effects (preview
generation, download triggering, object-URL creation) are modelled as
explicit oracle parameters.
-/

namespace Renamer

/-- ASCII whitespace characters recognised by the JS regex class back-slash-s
(space, tab, newline, carriage return, vertical tab, form feed). -/
def isWs (c : Char) : Bool :=
  c.toNat = 32 || c.toNat = 9 || c.toNat = 10 || c.toNat = 13 || c.toNat = 11 || c.toNat = 12

/-- Characters inside the character class A-Z, 0-9, underscore used by
normalize's final replacement step. -/
def isGood (c : Char) : Bool :=
  (65 ≤ c.toNat && c.toNat ≤ 90) || (48 ≤ c.toNat && c.toNat ≤ 57) || c.toNat = 95

/-- ASCII fragment of JS toUpperCase, applied character-wise. -/
def upChar (c : Char) : Char :=
  if 97 ≤ c.toNat ∧ c.toNat ≤ 122 then Char.ofNat (c.toNat - 32) else c

/-- ASCII fragment of JS toLowerCase, applied character-wise. -/
def downChar (c : Char) : Char :=
  if 65 ≤ c.toNat ∧ c.toNat ≤ 90 then Char.ofNat (c.toNat + 32) else c

/-- JS String.prototype.trim on a character list: drop whitespace at both
ends. -/
def trimL (l : List Char) : List Char :=
  ((l.dropWhile isWs).reverse.dropWhile isWs).reverse

/-- State machine for the regex replacement of each maximal whitespace run by
one underscore: the flag records whether the previous character was
whitespace. -/
def collapseWsAux : Bool → List Char → List Char
  | _, [] => []
  | prevWs, c :: rest =>
    if isWs c then
      if prevWs then collapseWsAux true rest
      else '_' :: collapseWsAux true rest
    else c :: collapseWsAux false rest

/-- normalize's final step: each character outside A-Z0-9_ is replaced by an
underscore (the g-flagged regex replacement). -/
def replaceBad (l : List Char) : List Char :=
  l.map (fun c => if isGood c then c else '_')

/-- Character-list body of normalize: trim, uppercase, collapse whitespace
runs to single underscores, then replace every remaining character outside
A-Z0-9_ by an underscore. -/
def normalizeL (l : List Char) : List Char :=
  replaceBad (collapseWsAux false ((trimL l).map upChar))

/-- The source's normalize: sanitize a user-supplied string for use inside a
filename. -/
def normalize (s : String) : String :=
  ⟨normalizeL s.data⟩

/-- JS String.prototype.padStart with width 2 and pad character zero. -/
def padStart2 (s : String) : String :=
  if s.length < 2 then ⟨List.replicate (2 - s.length) '0'⟩ ++ s else s

/-- Map a 0-based position among the filled tiles to the Amazon image type
token. -/
def imageTypeForIndex (i : Nat) : String :=
  if i = 0 then "MAIN" else "PT" ++ padStart2 (Nat.repr i)

/-- Character-list body of getExt: the regex captures the non-empty run of
non-dot characters after the final dot, falling back to jpg. -/
def getExtL (cs : List Char) : List Char :=
  let rev := cs.reverse
  let tail := rev.takeWhile (fun c => c ≠ '.')
  if tail.length = rev.length then ('j' :: 'p' :: 'g' :: [])
  else if tail.isEmpty then ('j' :: 'p' :: 'g' :: [])
  else tail.reverse

/-- The source's getExt: extension of a filename, lower-cased, defaulting to
jpg. -/
def getExt (name : String) : String :=
  ⟨(getExtL name.data).map downChar⟩

/-- A browser File as far as the app inspects it: its name and its declared
media type. -/
structure FileRef where
  name : String
  type : String
deriving DecidableEq

/-- A slot occupant: synthetic identifier, the underlying file, the preview
handle (data URL, empty on failure) and the preview-error flag. -/
structure Entry where
  id : Nat
  file : FileRef
  url : String
  error : Bool
deriving DecidableEq

/-- A manual-download fallback link: display name plus downloadable handle. -/
structure Link where
  name : String
  url : String
deriving DecidableEq

/-- Boolean prefix test on character lists (JS String.prototype.startsWith
restricted to the code points the app compares). -/
def isPrefixL : List Char → List Char → Bool
  | [], _ => true
  | _ :: _, [] => false
  | a :: as, b :: bs => a == b && isPrefixL as bs

/-- Boolean suffix test on character lists. -/
def isSuffixL (p l : List Char) : Bool :=
  isPrefixL p.reverse l.reverse

/-- The filename part of addFiles's filter: the regex accepts names ending in
.jpg, .jpeg or .png. -/
def isImageName (name : String) : Bool :=
  isSuffixL (".jpg").data name.data || isSuffixL (".jpeg").data name.data ||
    isSuffixL (".png").data name.data

/-- addFiles's candidate filter: declared image media type, or a recognised
image extension. -/
def imageLike (f : FileRef) : Bool :=
  isPrefixL ("image/").data f.type.data || isImageName f.name

/-- JS Array.prototype.map with the element index, starting the count at k. -/
def mapIdxFrom {α β : Type} (f : Nat → α → β) : Nat → List α → List β
  | _, [] => []
  | k, a :: rest => f k a :: mapIdxFrom f (k + 1) rest

/-- The source's buildFilename: PRODUCT and DIFFERENTIATOR normalized, the
date interpolated as typed, the type token for the filled position, and the
extracted extension of the entry's original filename. -/
def buildFilename (product date diff : String) (index : Nat) (item : Entry) : String :=
  normalize product ++ "_" ++ date ++ "_" ++ normalize diff ++ "_" ++
    imageTypeForIndex index ++ "." ++ getExt item.file.name

/-- The source's computeFinalNames: the filename for every filled slot, in
filled order. -/
def computeFinalNames (product date diff : String) (filled : List Entry) : List String :=
  mapIdxFrom (fun i item => buildFilename product date diff i item) 0 filled

/-- fileToPreview applied to a batch: each accepted file becomes an entry
with a fresh identifier; the preview oracle supplies the data URL and error
flag the FileReader produced. -/
def prepare (base : Nat) (pv : FileRef → String × Bool) : List FileRef → List Entry
  | [] => []
  | f :: rest => ⟨base, f, (pv f).1, (pv f).2⟩ :: prepare (base + 1) pv rest

/-- JS array read: out-of-range indices read as undefined, i.e. an empty
slot. -/
def jsGet (l : List (Option Entry)) (i : Nat) : Option Entry :=
  (l.get? i).getD none

/-- JS array write: writing past the end pads the array with holes and grows
it. -/
def jsSet (l : List (Option Entry)) (i : Nat) (v : Option Entry) : List (Option Entry) :=
  if i < l.length then l.set i v
  else l ++ List.replicate (i - l.length) none ++ (v :: [])

/-- addFiles's bulk placement loop: walk the slots in ascending index order,
dropping each next prepared entry into each empty slot until either runs
out. -/
def fillEmpty : List (Option Entry) → List Entry → List (Option Entry)
  | [], _ => []
  | s :: rest, [] => s :: rest
  | none :: rest, p :: ps => some p :: fillEmpty rest ps
  | some e :: rest, p :: ps => some e :: fillEmpty rest (p :: ps)

/-- Number of empty slots strictly before index i. -/
def emptiesBefore (slots : List (Option Entry)) (i : Nat) : Nat :=
  ((slots.take i).filter (fun s => s.isNone)).length

/-- The slot store: the 10-element files array plus the identifier supply for
freshly prepared entries. -/
structure Store where
  slots : List (Option Entry)
  nextId : Nat

/-- The source's addFiles: filter to image-like candidates, cap the batch at
10, prepare previews, then either overwrite the target slot with the first
prepared entry or fill the empty slots in ascending order. -/
def addFiles (st : Store) (fileList : List FileRef) (targetIndex : Option Nat)
    (pv : FileRef → String × Bool) : Store :=
  let imgs := (fileList.filter imageLike).take 10
  if imgs.isEmpty then st
  else
    let prepared := prepare st.nextId pv imgs
    match targetIndex with
    | some t => { slots := jsSet st.slots t prepared.head?, nextId := st.nextId + prepared.length }
    | none => { slots := fillEmpty st.slots prepared, nextId := st.nextId + prepared.length }

/-- The source's handleRemove: map over the array, clearing the slot at the
given index. -/
def handleRemove (slots : List (Option Entry)) (index : Nat) : List (Option Entry) :=
  mapIdxFrom (fun i item => if i = index then none else item) 0 slots

/-- The source's swapFiles: no-op when the drag source is null or equals the
target, otherwise exchange the two slots' contents. -/
def swapFiles (slots : List (Option Entry)) (fromIdx : Option Nat) (toIdx : Nat) :
    List (Option Entry) :=
  match fromIdx with
  | none => slots
  | some f =>
    if f = toIdx then slots
    else
      let temp := jsGet slots f
      let s1 := jsSet slots f (jsGet slots toIdx)
      jsSet s1 toIdx temp

/-- A slot-store mutation as invokable from the UI. -/
inductive Op where
  | add (files : List FileRef) (target : Option Nat) (pv : FileRef → String × Bool)
  | remove (i : Nat)
  | swap (fromIdx : Option Nat) (toIdx : Nat)

/-- Slot-index arguments that stay inside the 10-slot array. -/
def validOp : Op → Bool
  | .add _ t _ => (match t with | none => true | some i => decide (i < 10))
  | .remove _ => true
  | .swap f t => (match f with | none => true | some i => decide (i < 10)) && decide (t < 10)

/-- One state transition of the slot store. -/
def applyOp (st : Store) : Op → Store
  | .add fs t pv => addFiles st fs t pv
  | .remove i => { st with slots := handleRemove st.slots i }
  | .swap f t => { st with slots := swapFiles st.slots f t }

/-- Run a sequence of operations from a starting state. -/
def run (st : Store) : List Op → Store
  | [] => st
  | op :: rest => run (applyOp st op) rest

/-- The initial state: ten empty slots. -/
def initStore : Store :=
  ⟨List.replicate 10 none, 0⟩

/-- The filled sub-sequence: the occupied slots' entries, in slot order. -/
def filledOf (slots : List (Option Entry)) : List Entry :=
  slots.filterMap id

/-- The rank of slot i among the occupied slots: how many occupied slots
precede it. -/
def occBefore (slots : List (Option Entry)) (i : Nat) : Nat :=
  ((slots.take i).filterMap id).length

/-- Status line after a successful ZIP trigger. -/
def statusZipTriggered : String := "ZIP download triggered."

/-- Status line when the ZIP trigger was blocked. -/
def statusZipBlocked : String := "Browser blocked ZIP download — manual link shown below."

/-- Status line when every individual trigger fired. -/
def statusAllTriggered : String :=
  "All downloads triggered. If prompted, allow multiple downloads for this site."

/-- Status line when some individual triggers were blocked. -/
def statusSomeBlocked : String :=
  "Your browser limited multiple automatic downloads — manual links are shown below."

/-- Outcome of one archive export: archive entry paths in filled order, the
archive's own name, the manual-link list after the export, and the reported
status. -/
structure ZipResult where
  entries : List String
  zipName : String
  pendingAfter : List Link
  status : String
deriving DecidableEq

/-- Outcome of one individual export: the filename of every attempted
trigger in filled order, the manual fallback links produced, the
manual-link list after the export, and the reported status. -/
structure IndivResult where
  attempts : List String
  manual : List Link
  pendingAfter : List Link
  status : String
deriving DecidableEq

/-- The source's downloadZip: refuse on an empty filled list; otherwise add
every filled slot's bytes under its computed filename, always surface a
manual link for the archive (replacing a previous link of the same name),
and report whether the automatic trigger fired. The trigger outcome is the
autoOk oracle; the archive's object URL is the zipUrl oracle. -/
def downloadZip (filled : List Entry) (pending : List Link) (product date diff : String)
    (zipUrl : String) (autoOk : Bool) : Option ZipResult :=
  if filled.isEmpty then none
  else
    let name := normalize product ++ "_" ++ date ++ "_" ++ normalize diff ++ ".zip"
    some { entries := mapIdxFrom (fun i item => buildFilename product date diff i item) 0 filled,
           zipName := name,
           pendingAfter := ⟨name, zipUrl⟩ :: pending.filter (fun l => l.name != name),
           status := if autoOk then statusZipTriggered else statusZipBlocked }

/-- downloadIndividually's synchronous loop over the filled list, carrying
the filled position: records every attempted filename and, for each trigger
the trg oracle reports as failed, one manual link holding that filename and
the objUrl oracle's handle for the file. -/
def indivLoop (product date diff : String) (trg : Nat → Bool) (objUrl : Entry → String) :
    Nat → List Entry → List String × List Link
  | _, [] => ([], [])
  | i, item :: rest =>
    let filename := buildFilename product date diff i item
    let r := indivLoop product date diff trg objUrl (i + 1) rest
    if trg i then (filename :: r.1, r.2)
    else (filename :: r.1, ⟨filename, objUrl item⟩ :: r.2)

/-- The source's downloadIndividually: refuse on an empty filled list;
otherwise attempt every filled slot's download in filled order, prepend the
collected manual fallbacks to the pending list when any trigger failed, and
report the corresponding status. -/
def downloadIndividually (filled : List Entry) (pending : List Link)
    (product date diff : String) (trg : Nat → Bool) (objUrl : Entry → String) :
    Option IndivResult :=
  if filled.isEmpty then none
  else
    let r := indivLoop product date diff trg objUrl 0 filled
    if r.2.isEmpty then some ⟨r.1, r.2, pending, statusAllTriggered⟩
    else some ⟨r.1, r.2, r.2 ++ pending, statusSomeBlocked⟩

/-- The clear-links button: empty the manual-link list. -/
def clearLinks (_pending : List Link) : List Link := []

/-- Archive entry paths of an export outcome. -/
def zipEntriesOf : Option ZipResult → List String
  | none => []
  | some r => r.entries

/-- Manual-link list after an archive export outcome. -/
def zipPendingAfterOf : Option ZipResult → List Link
  | none => []
  | some r => r.pendingAfter

/-- Attempted filenames of an individual export outcome. -/
def indivAttemptsOf : Option IndivResult → List String
  | none => []
  | some r => r.attempts

/-- Manual-link list after an individual export outcome. -/
def indivPendingAfterOf : Option IndivResult → List Link
  | none => []
  | some r => r.pendingAfter

/-- Closed form of the manual fallbacks an individual export produces: one
link per filled position whose trigger failed, holding its computed
filename. -/
def manualFor (product date diff : String) (trg : Nat → Bool) (objUrl : Entry → String)
    (filled : List Entry) : List Link :=
  (mapIdxFrom (fun i item => (i, item)) 0 filled).filterMap
    (fun pr => if trg pr.1 then none
               else some ⟨buildFilename product date diff pr.1 pr.2, objUrl pr.2⟩)

/-! Spec-side definitions.  These follow the specification's wording rather
than the source, for comparison with the source-derived definitions. -/

theorem dropWhile_length_le {α : Type} (p : α → Bool) (l : List α) :
    (l.dropWhile p).length ≤ l.length := by
  induction l with
  | nil => simp [List.dropWhile]
  | cons a rest ih =>
    by_cases h : p a
    · simp [List.dropWhile, h]
      omega
    · simp [List.dropWhile, h]

/-- Modelled from the spec: collapse each maximal run of whitespace to a
single underscore, written as direct recursion over the runs. -/
def specCollapse : List Char → List Char
  | [] => []
  | c :: rest =>
    if isWs c then '_' :: specCollapse (rest.dropWhile isWs)
    else c :: specCollapse rest
termination_by l => l.length
decreasing_by
  · have := dropWhile_length_le isWs rest
    simp only [List.length_cons]
    omega
  · simp only [List.length_cons]
    omega

/-- Modelled from the spec's words for the normalization claim: trim,
uppercase, collapse whitespace runs to single underscores, then strip
(remove) every character outside A-Z0-9_. -/
def specNormalizeStrip (s : String) : String :=
  ⟨(specCollapse ((trimL s.data).map upChar)).filter isGood⟩

/-- The amended normalization pipeline: as specNormalizeStrip, but replacing
each character outside A-Z0-9_ with an underscore instead of removing it. -/
def specNormalizeRepl (s : String) : String :=
  ⟨(specCollapse ((trimL s.data).map upChar)).map (fun c => if isGood c then c else '_')⟩

/-! Lemmas about normalization. -/

theorem isGood_replace (c : Char) : isGood (if isGood c then c else '_') = true := by
  by_cases h : isGood c
  · simp [h]
  · simp [h]
    decide

theorem mem_replaceBad_good {c : Char} {l : List Char} (h : c ∈ replaceBad l) :
    isGood c = true := by
  unfold replaceBad at h
  rcases List.mem_map.mp h with ⟨d, _, hd⟩
  subst hd
  exact isGood_replace d

theorem isWs_of_good {c : Char} (h : isGood c = true) : isWs c = false := by
  simp only [isGood, Bool.or_eq_true, Bool.and_eq_true, decide_eq_true_eq] at h
  simp only [isWs, Bool.or_eq_false_iff, decide_eq_false_iff_not]
  omega

theorem upChar_of_good {c : Char} (h : isGood c = true) : upChar c = c := by
  simp only [isGood, Bool.or_eq_true, Bool.and_eq_true, decide_eq_true_eq] at h
  unfold upChar
  rw [if_neg]
  omega

theorem dropWhile_eq_self_of_none {α : Type} {p : α → Bool} {l : List α}
    (h : ∀ c ∈ l, p c = false) : l.dropWhile p = l := by
  cases l with
  | nil => rfl
  | cons a rest => simp [List.dropWhile, h a (List.mem_cons_self a rest)]

theorem trimL_eq_self_of_good {l : List Char} (h : ∀ c ∈ l, isGood c = true) :
    trimL l = l := by
  unfold trimL
  rw [dropWhile_eq_self_of_none (fun c hc => isWs_of_good (h c hc))]
  rw [dropWhile_eq_self_of_none (fun c hc => isWs_of_good (h c (List.mem_reverse.mp hc)))]
  exact List.reverse_reverse l

theorem map_upChar_eq_self_of_good {l : List Char} (h : ∀ c ∈ l, isGood c = true) :
    l.map upChar = l := by
  induction l with
  | nil => rfl
  | cons a rest ih =>
    simp only [List.map_cons]
    rw [upChar_of_good (h a (List.mem_cons_self a rest)),
      ih (fun c hc => h c (List.mem_cons_of_mem a hc))]

theorem collapseWsAux_eq_self_of_good {l : List Char} (h : ∀ c ∈ l, isGood c = true) :
    collapseWsAux false l = l := by
  induction l with
  | nil => rfl
  | cons a rest ih =>
    unfold collapseWsAux
    rw [if_neg (by simp [isWs_of_good (h a (List.mem_cons_self a rest))])]
    rw [ih (fun c hc => h c (List.mem_cons_of_mem a hc))]

theorem replaceBad_eq_self_of_good {l : List Char} (h : ∀ c ∈ l, isGood c = true) :
    replaceBad l = l := by
  unfold replaceBad
  induction l with
  | nil => rfl
  | cons a rest ih =>
    simp only [List.map_cons]
    rw [if_pos (h a (List.mem_cons_self a rest)),
      ih (fun c hc => h c (List.mem_cons_of_mem a hc))]

theorem normalizeL_good {c : Char} {l : List Char} (h : c ∈ normalizeL l) :
    isGood c = true :=
  mem_replaceBad_good h

theorem normalizeL_fix {l : List Char} (h : ∀ c ∈ l, isGood c = true) :
    normalizeL l = l := by
  unfold normalizeL
  rw [trimL_eq_self_of_good h, map_upChar_eq_self_of_good h,
    collapseWsAux_eq_self_of_good h, replaceBad_eq_self_of_good h]

theorem normalize_idem (s : String) : normalize (normalize s) = normalize s := by
  unfold normalize
  exact congrArg String.mk (normalizeL_fix (fun c hc => normalizeL_good hc))

theorem collapseWsAux_true_eq (l : List Char) :
    collapseWsAux true l = collapseWsAux false (l.dropWhile isWs) := by
  induction l with
  | nil => rfl
  | cons a rest ih =>
    by_cases h : isWs a
    · rw [show collapseWsAux true (a :: rest) = collapseWsAux true rest by
        simp [collapseWsAux, h]]
      rw [ih]
      rw [show List.dropWhile isWs (a :: rest) = List.dropWhile isWs rest by
        simp [List.dropWhile, h]]
    · rw [show collapseWsAux true (a :: rest) = a :: collapseWsAux false rest by
        simp [collapseWsAux, h]]
      rw [show List.dropWhile isWs (a :: rest) = a :: rest by
        simp [List.dropWhile, h]]
      rw [show collapseWsAux false (a :: rest) = a :: collapseWsAux false rest by
        simp [collapseWsAux, h]]

theorem collapseWsAux_eq_specCollapse_aux (n : Nat) :
    ∀ l : List Char, l.length ≤ n → collapseWsAux false l = specCollapse l := by
  induction n with
  | zero =>
    intro l hl
    rw [List.length_eq_zero.mp (Nat.le_zero.mp hl)]
    simp [specCollapse, collapseWsAux]
  | succ n ih =>
    intro l hl
    cases l with
    | nil => simp [specCollapse, collapseWsAux]
    | cons a rest =>
      by_cases h : isWs a
      · rw [show collapseWsAux false (a :: rest) = '_' :: collapseWsAux true rest by
          simp [collapseWsAux, h]]
        rw [collapseWsAux_true_eq rest]
        rw [ih (rest.dropWhile isWs)
          (by have := dropWhile_length_le isWs rest; simp at hl; omega)]
        rw [show specCollapse (a :: rest) = '_' :: specCollapse (rest.dropWhile isWs) by
          rw [specCollapse]; simp [h]]
      · rw [show collapseWsAux false (a :: rest) = a :: collapseWsAux false rest by
          simp [collapseWsAux, h]]
        rw [ih rest (by simp at hl; omega)]
        rw [show specCollapse (a :: rest) = a :: specCollapse rest by
          rw [specCollapse]; simp [h]]

theorem collapseWsAux_eq_specCollapse (l : List Char) :
    collapseWsAux false l = specCollapse l :=
  collapseWsAux_eq_specCollapse_aux l.length l (Nat.le_refl _)

theorem normalize_eq_specNormalizeRepl (s : String) : normalize s = specNormalizeRepl s := by
  unfold normalize specNormalizeRepl normalizeL replaceBad
  rw [collapseWsAux_eq_specCollapse]

/-! List infrastructure lemmas. -/

theorem mapIdxFrom_get? {α β : Type} (f : Nat → α → β) :
    ∀ (l : List α) (k i : Nat), (mapIdxFrom f k l).get? i = (l.get? i).map (f (k + i)) := by
  intro l
  induction l with
  | nil => intro k i; simp [mapIdxFrom]
  | cons a rest ih =>
    intro k i
    cases i with
    | zero => simp [mapIdxFrom]
    | succ i =>
      simp only [mapIdxFrom, List.get?]
      rw [ih (k + 1) i]
      have hk : k + 1 + i = k + (i + 1) := by omega
      rw [hk]

theorem mapIdxFrom_length {α β : Type} (f : Nat → α → β) :
    ∀ (l : List α) (k : Nat), (mapIdxFrom f k l).length = l.length := by
  intro l
  induction l with
  | nil => intro k; rfl
  | cons a rest ih => intro k; simp [mapIdxFrom, ih]

theorem get?_set_self {α : Type} :
    ∀ (l : List α) (i : Nat) (v : α), i < l.length → (l.set i v).get? i = some v := by
  intro l
  induction l with
  | nil => intro i v h; simp at h
  | cons a rest ih =>
    intro i v h
    cases i with
    | zero => rfl
    | succ i =>
      simp only [List.set, List.get?]
      exact ih i v (by simp at h; omega)

theorem get?_set_other {α : Type} :
    ∀ (l : List α) (i j : Nat) (v : α), i ≠ j → (l.set i v).get? j = l.get? j := by
  intro l
  induction l with
  | nil => intro i j v _; simp
  | cons a rest ih =>
    intro i j v hne
    cases i with
    | zero =>
      cases j with
      | zero => exact absurd rfl hne
      | succ j => rfl
    | succ i =>
      cases j with
      | zero => rfl
      | succ j =>
        simp only [List.set, List.get?]
        exact ih i j v (by omega)

theorem get?_some_lt {α : Type} :
    ∀ (l : List α) (k : Nat) (a : α), l.get? k = some a → k < l.length := by
  intro l
  induction l with
  | nil => intro k a h; simp at h
  | cons b rest ih =>
    intro k a h
    cases k with
    | zero => simp
    | succ k =>
      simp only [List.get?] at h
      have := ih k a h
      simp
      omega

theorem prepare_length (pv : FileRef → String × Bool) :
    ∀ (fs : List FileRef) (base : Nat), (prepare base pv fs).length = fs.length := by
  intro fs
  induction fs with
  | nil => intro base; rfl
  | cons f rest ih => intro base; simp [prepare, ih]

theorem prepare_get? (pv : FileRef → String × Bool) :
    ∀ (fs : List FileRef) (base k : Nat),
      (prepare base pv fs).get? k = (fs.get? k).map
        (fun f => ⟨base + k, f, (pv f).1, (pv f).2⟩) := by
  intro fs
  induction fs with
  | nil => intro base k; simp [prepare]
  | cons f rest ih =>
    intro base k
    cases k with
    | zero => simp [prepare]
    | succ k =>
      simp only [prepare, List.get?]
      rw [ih (base + 1) k]
      have hb : base + 1 + k = base + (k + 1) := by omega
      rw [hb]

theorem prepare_map_file (pv : FileRef → String × Bool) :
    ∀ (fs : List FileRef) (base : Nat), (prepare base pv fs).map Entry.file = fs := by
  intro fs
  induction fs with
  | nil => intro base; rfl
  | cons f rest ih => intro base; simp [prepare, ih]

theorem prepare_id_get? (pv : FileRef → String × Bool) {fs : List FileRef} {base k : Nat}
    {e : Entry} (h : (prepare base pv fs).get? k = some e) : e.id = base + k := by
  rw [prepare_get? pv fs base k] at h
  cases hf : fs.get? k with
  | none => rw [hf] at h; simp at h
  | some f =>
    rw [hf] at h
    have h2 : (⟨base + k, f, (pv f).1, (pv f).2⟩ : Entry) = e := Option.some.inj h
    rw [← h2]

theorem fillEmpty_length :
    ∀ (slots : List (Option Entry)) (ps : List Entry),
      (fillEmpty slots ps).length = slots.length := by
  intro slots
  induction slots with
  | nil => intro ps; cases ps <;> rfl
  | cons s rest ih =>
    intro ps
    cases ps with
    | nil => cases s <;> rfl
    | cons p ps' =>
      cases s with
      | none => simp [fillEmpty, ih]
      | some e => simp [fillEmpty, ih]

theorem emptiesBefore_zero (slots : List (Option Entry)) : emptiesBefore slots 0 = 0 := by
  simp [emptiesBefore]

theorem emptiesBefore_cons (s : Option Entry) (rest : List (Option Entry)) (i : Nat) :
    emptiesBefore (s :: rest) (i + 1) =
      (if s.isNone then 1 else 0) + emptiesBefore rest i := by
  unfold emptiesBefore
  simp only [List.take]
  cases s with
  | none =>
    simp [List.filter]
    omega
  | some e => simp [List.filter]

theorem fillEmpty_get? :
    ∀ (slots : List (Option Entry)) (ps : List Entry) (i : Nat),
      (fillEmpty slots ps).get? i = (slots.get? i).map
        (fun s => match s with
          | some e => some e
          | none => ps.get? (emptiesBefore slots i)) := by
  intro slots
  induction slots with
  | nil => intro ps i; simp [fillEmpty]
  | cons s rest ih =>
    intro ps i
    cases ps with
    | nil =>
      rw [show fillEmpty (s :: rest) [] = s :: rest by cases s <;> rfl]
      cases i with
      | zero =>
        cases s with
        | none => simp
        | some e => simp
      | succ i =>
        simp only [List.get?]
        cases h : rest.get? i with
        | none => simp [h]
        | some t =>
          simp only [h, Option.map_some']
          cases t with
          | some e => rfl
          | none => simp
    | cons p ps' =>
      cases s with
      | none =>
        cases i with
        | zero => simp [fillEmpty, emptiesBefore_zero]
        | succ i =>
          simp only [fillEmpty, List.get?]
          rw [ih ps' i]
          rfl
      | some e =>
        cases i with
        | zero => simp [fillEmpty]
        | succ i =>
          simp only [fillEmpty, List.get?]
          rw [ih (p :: ps') i]
          rw [emptiesBefore_cons]
          simp

theorem emptiesBefore_lt_of_none :
    ∀ (slots : List (Option Entry)) (i j : Nat), i < j →
      slots.get? i = some none → emptiesBefore slots i < emptiesBefore slots j := by
  intro slots
  induction slots with
  | nil => intro i j _ h; simp at h
  | cons s rest ih =>
    intro i j hij h
    cases i with
    | zero =>
      have hs : s = none := by
        simp only [List.get?] at h
        exact Option.some.inj h
      subst hs
      rw [emptiesBefore_zero]
      cases j with
      | zero => omega
      | succ j =>
        rw [emptiesBefore_cons]
        simp
    | succ i =>
      cases j with
      | zero => omega
      | succ j =>
        simp only [List.get?] at h
        rw [emptiesBefore_cons, emptiesBefore_cons]
        have := ih i j (by omega) h
        omega

theorem filledOf_get? :
    ∀ (slots : List (Option Entry)) (p : Nat) (e : Entry),
      slots.get? p = some (some e) →
      (filledOf slots).get? (occBefore slots p) = some e := by
  intro slots
  induction slots with
  | nil => intro p e h; simp at h
  | cons s rest ih =>
    intro p e h
    cases p with
    | zero =>
      have hs : s = some e := by
        simp only [List.get?] at h
        exact Option.some.inj h
      subst hs
      simp [filledOf, occBefore]
    | succ p =>
      simp only [List.get?] at h
      cases s with
      | none =>
        rw [show occBefore (none :: rest) (p + 1) = occBefore rest p by
          simp [occBefore, List.take]]
        rw [show filledOf (none :: rest) = filledOf rest by simp [filledOf]]
        exact ih p e h
      | some x =>
        rw [show occBefore (some x :: rest) (p + 1) = occBefore rest p + 1 by
          simp [occBefore, List.take]]
        rw [show filledOf (some x :: rest) = x :: filledOf rest by simp [filledOf]]
        simp only [List.get?]
        exact ih p e h

/-! Concrete sample values used by counterexamples and witnesses. -/

/-- A concrete image-like file. -/
def sampleFile : FileRef := ⟨("photo.png"), ("image/png")⟩

/-- A concrete slot entry over sampleFile. -/
def sampleEntry : Entry := ⟨0, sampleFile, "", false⟩

/-- A preview oracle whose FileReader always succeeds with an empty data
URL. -/
def samplePreview : FileRef → String × Bool := fun _ => ("", false)

/-- A pending link whose name collides with the archive name of a zip export
run with product A, date 1, differentiator B. -/
def collidingLink : Link := ⟨("A_1_B.zip"), ("u1")⟩

/-- A pending link whose name collides with no archive name used in the
witnesses. -/
def unrelatedLink : Link := ⟨("other.zip"), ("u0")⟩

/-! Claim theorems. -/

/-- C1 counterexample: the code interpolates the raw date into the filename,
so for the date string 2025-11 the computed filename differs from the
all-fields-normalized form the claim describes (which would turn the hyphen
into an underscore). -/
theorem buildFilename_date_cex :
    buildFilename ("P") ("2025-11") ("D") 0 sampleEntry = "P_2025-11_D_MAIN.png" ∧
    normalize ("P") ++ "_" ++ normalize ("2025-11") ++ "_" ++ normalize ("D") ++ "_" ++
      imageTypeForIndex 0 ++ "." ++ getExt ("photo.png") = "P_2025_11_D_MAIN.png" ∧
    buildFilename ("P") ("2025-11") ("D") 0 sampleEntry ≠
      normalize ("P") ++ "_" ++ normalize ("2025-11") ++ "_" ++ normalize ("D") ++ "_" ++
        imageTypeForIndex 0 ++ "." ++ getExt ("photo.png") := by
  decide

/-- C1 (amended): for every product, date and differentiator string, every
filled-position index and every occupied entry, the computed filename is
PRODUCT underscore DATE underscore DIFFERENTIATOR underscore TYPE dot ext,
where PRODUCT and DIFFERENTIATOR are the normalizations of the user-supplied
strings, DATE is the raw user-supplied date string (not normalized), TYPE is
the type token for the index, and ext is the extracted extension of the
entry's original filename. -/
theorem buildFilename_template :
    ∀ (product date diff : String) (i : Nat) (item : Entry),
      buildFilename product date diff i item =
        normalize product ++ "_" ++ date ++ "_" ++ normalize diff ++ "_" ++
          imageTypeForIndex i ++ "." ++ getExt item.file.name := by
  intro p d df i it
  rfl

/-- C2: the type-token function maps position 0 to MAIN, positions 1 to 9 to
PT with the index zero-padded to width 2, and in particular positions 1, 9
and 10 to PT01, PT09 and PT10. -/
theorem imageTypeForIndex_spec :
    imageTypeForIndex 0 = "MAIN" ∧
    (∀ i : Fin 9, imageTypeForIndex (i.1 + 1) = "PT0" ++ Nat.repr (i.1 + 1)) ∧
    imageTypeForIndex 1 = "PT01" ∧ imageTypeForIndex 9 = "PT09" ∧
    imageTypeForIndex 10 = "PT10" := by
  decide

/-- C4 counterexample: on the input a-bang, normalize replaces the
non-alphanumeric character with an underscore, while the claimed pipeline
(strip characters outside A-Z0-9 underscore) removes it, so the two
disagree. -/
theorem normalize_strip_cex :
    normalize ("a!") = "A_" ∧ specNormalizeStrip ("a!") = "A" ∧
    normalize ("a!") ≠ specNormalizeStrip ("a!") := by
  have he : specNormalizeStrip ("a!") = "A" := by
    unfold specNormalizeStrip
    rw [← collapseWsAux_eq_specCollapse]
    decide
  refine ⟨by decide, he, ?_⟩
  rw [he]
  decide

/-- C4 (amended): for every string s, normalize s equals the result of
trimming s, uppercasing it, collapsing each whitespace run to a single
underscore, and then replacing (not removing) every character outside
A-Z0-9 underscore with an underscore; the empty string normalizes to the
empty string rather than being an error. -/
theorem normalize_pipeline :
    (∀ s : String, normalize s = specNormalizeRepl s) ∧ normalize ("") = "" := by
  refine ⟨normalize_eq_specNormalizeRepl, by decide⟩

/-- C5: normalization is idempotent, and the three spec examples hold: the
empty string maps to itself, Tw Nose Kit-bang maps to TW_NOSE_KIT
underscore, and women refresh maps to WOMEN_REFRESH. -/
theorem normalize_idempotent :
    (∀ s : String, normalize (normalize s) = normalize s) ∧
    normalize ("") = "" ∧
    normalize ("Tw Nose Kit!") = "TW_NOSE_KIT_" ∧
    normalize ("women refresh") = "WOMEN_REFRESH" := by
  refine ⟨normalize_idem, by decide, by decide, by decide⟩

/-- C7: addFiles without a target keeps only image-like candidates, caps the
accepted batch at 10, preserves the number of slots, and produces exactly
this array: slot i keeps its old occupant when occupied, and an empty slot i
receives the k-th accepted file where k counts the empty slots before i (so
accepted files fill the empty slots in ascending slot order in batch order,
and accepted files with no empty slot left are silently dropped). -/
theorem addFiles_bulk_spec (st : Store) (fl : List FileRef) (pv : FileRef → String × Bool) :
    ((fl.filter imageLike).take 10).all imageLike = true ∧
    ((fl.filter imageLike).take 10).length ≤ 10 ∧
    (prepare st.nextId pv ((fl.filter imageLike).take 10)).map Entry.file =
      (fl.filter imageLike).take 10 ∧
    (addFiles st fl none pv).slots.length = st.slots.length ∧
    (∀ i, (addFiles st fl none pv).slots.get? i =
      (st.slots.get? i).map (fun s => match s with
        | some e => some e
        | none => (prepare st.nextId pv ((fl.filter imageLike).take 10)).get?
            (emptiesBefore st.slots i))) := by
  refine ⟨?_, ?_, prepare_map_file pv _ _, ?_, ?_⟩
  · rw [List.all_eq_true]
    intro x hx
    exact (List.mem_filter.mp (List.mem_of_mem_take hx)).2
  · rw [List.length_take]
    omega
  · unfold addFiles
    by_cases h : ((fl.filter imageLike).take 10).isEmpty
    · simp only [h, if_true]
    · simp only [h, if_false]
      exact fillEmpty_length st.slots _
  · intro i
    unfold addFiles
    by_cases h : ((fl.filter imageLike).take 10).isEmpty
    · simp only [h, if_true]
      rw [List.isEmpty_iff.mp h]
      cases hs : st.slots.get? i with
      | none => rfl
      | some s =>
        cases s with
        | some e => rfl
        | none =>
          simp only [Option.map_some']
          rw [show prepare st.nextId pv [] = [] from rfl]
          rfl
    · simp only [h, if_false]
      exact fillEmpty_get? st.slots _ i

/-- The store with entries in slots 2 and 5 only, used by the C3 instance. -/
def slots25 (e2 e5 : Entry) : List (Option Entry) :=
  none :: none :: some e2 :: none :: none :: some e5 :: none :: none :: none :: none :: []

/-- C3: the type token of an occupied slot is determined by its rank among
the occupied slots taken in ascending slot order, not by its physical
index: the entry of occupied slot p is the element of the filled sequence
at position occBefore p, so the filename list built over the filled
sequence gives it the token for that rank; in particular, when slots 2 and
5 are the only filled slots, slot 2 has rank 0 (token MAIN) and slot 5 has
rank 1 (token PT01). -/
theorem filled_rank_token (product date diff : String) :
    (∀ (slots : List (Option Entry)) (p : Nat) (e : Entry),
      slots.get? p = some (some e) →
      (filledOf slots).get? (occBefore slots p) = some e ∧
      (computeFinalNames product date diff (filledOf slots)).get? (occBefore slots p) =
        some (buildFilename product date diff (occBefore slots p) e)) ∧
    (∀ e2 e5 : Entry,
      occBefore (slots25 e2 e5) 2 = 0 ∧ occBefore (slots25 e2 e5) 5 = 1 ∧
      imageTypeForIndex 0 = "MAIN" ∧ imageTypeForIndex 1 = "PT01") := by
  constructor
  · intro slots p e h
    have h1 := filledOf_get? slots p e h
    refine ⟨h1, ?_⟩
    unfold computeFinalNames
    rw [mapIdxFrom_get?]
    rw [h1]
    simp
  · intro e2 e5
    refine ⟨?_, ?_, by decide, by decide⟩
    · simp [slots25, occBefore, List.take, List.filterMap]
    · simp [slots25, occBefore, List.take, List.filterMap]

/-- indivLoop computes, in one pass, the attempted filename list and the
manual fallback list described positionally. -/
theorem indivLoop_spec (product date diff : String) (trg : Nat → Bool)
    (objUrl : Entry → String) :
    ∀ (filled : List Entry) (k : Nat),
      indivLoop product date diff trg objUrl k filled =
        (mapIdxFrom (fun i item => buildFilename product date diff i item) k filled,
         (mapIdxFrom (fun i item => (i, item)) k filled).filterMap
           (fun pr => if trg pr.1 then none
                      else some ⟨buildFilename product date diff pr.1 pr.2, objUrl pr.2⟩)) := by
  intro filled
  induction filled with
  | nil => intro k; rfl
  | cons item rest ih =>
    intro k
    simp only [indivLoop, mapIdxFrom, List.filterMap_cons]
    rw [ih (k + 1)]
    by_cases h : trg k
    · simp [h]
    · simp [h]

/-- indivLoop from position 0, with the fallback component folded as
manualFor. -/
theorem indivLoop_zero (product date diff : String) (trg : Nat → Bool)
    (objUrl : Entry → String) (filled : List Entry) :
    indivLoop product date diff trg objUrl 0 filled =
      (mapIdxFrom (fun i item => buildFilename product date diff i item) 0 filled,
       manualFor product date diff trg objUrl filled) :=
  indivLoop_spec product date diff trg objUrl filled 0

/-- Closed form of a nonempty individual export. -/
theorem downloadIndividually_eq (filled : List Entry) (pending : List Link)
    (product date diff : String) (trg : Nat → Bool) (objUrl : Entry → String)
    (h : filled ≠ []) :
    downloadIndividually filled pending product date diff trg objUrl =
      some ⟨mapIdxFrom (fun i item => buildFilename product date diff i item) 0 filled,
            manualFor product date diff trg objUrl filled,
            manualFor product date diff trg objUrl filled ++ pending,
            if (manualFor product date diff trg objUrl filled).isEmpty
              then statusAllTriggered else statusSomeBlocked⟩ := by
  have hne : filled.isEmpty = false := by
    cases filled with
    | nil => exact absurd rfl h
    | cons a rest => rfl
  unfold downloadIndividually
  rw [hne]
  simp only [Bool.false_eq_true, if_false]
  rw [indivLoop_zero]
  by_cases hm : (manualFor product date diff trg objUrl filled).isEmpty
  · rw [if_pos hm, if_pos hm]
    have hm2 : manualFor product date diff trg objUrl filled = [] := List.isEmpty_iff.mp hm
    rw [hm2]
    rfl
  · rw [if_neg hm, if_neg hm]

/-- Closed form of a nonempty archive export. -/
theorem downloadZip_eq (filled : List Entry) (pending : List Link)
    (product date diff : String) (zipUrl : String) (autoOk : Bool) (h : filled ≠ []) :
    downloadZip filled pending product date diff zipUrl autoOk =
      some ⟨mapIdxFrom (fun i item => buildFilename product date diff i item) 0 filled,
            normalize product ++ "_" ++ date ++ "_" ++ normalize diff ++ ".zip",
            ⟨normalize product ++ "_" ++ date ++ "_" ++ normalize diff ++ ".zip", zipUrl⟩ ::
              pending.filter
                (fun l => l.name !=
                  normalize product ++ "_" ++ date ++ "_" ++ normalize diff ++ ".zip"),
            if autoOk then statusZipTriggered else statusZipBlocked⟩ := by
  have hne : filled.isEmpty = false := by
    cases filled with
    | nil => exact absurd rfl h
    | cons a rest => rfl
  unfold downloadZip
  rw [hne]
  rfl

/-- The manual fallback list is empty exactly when every trigger fired. -/
theorem manualFor_isEmpty_iff (product date diff : String) (trg : Nat → Bool)
    (objUrl : Entry → String) (filled : List Entry) :
    (manualFor product date diff trg objUrl filled).isEmpty = true ↔
      (mapIdxFrom (fun i item => (i, item)) 0 filled).all (fun pr => trg pr.1) = true := by
  rw [List.isEmpty_iff]
  unfold manualFor
  rw [List.filterMap_eq_nil_iff, List.all_eq_true]
  constructor
  · intro hall pr hpr
    have := hall pr hpr
    by_cases h : trg pr.1
    · exact h
    · rw [if_neg h] at this
      exact absurd this (by simp)
  · intro hall pr hpr
    rw [if_pos (hall pr hpr)]

/-- C3 witness: instantiating the rank theorem at a one-slot store. -/
theorem filled_rank_token_witness :
    ((some sampleEntry :: []) : List (Option Entry)).get? 0 = some (some sampleEntry) ∧
    ((filledOf (some sampleEntry :: [])).get?
        (occBefore (some sampleEntry :: []) 0) = some sampleEntry ∧
      (computeFinalNames ("P") ("202511") ("D")
          (filledOf (some sampleEntry :: []))).get?
          (occBefore (some sampleEntry :: []) 0) =
        some (buildFilename ("P") ("202511") ("D")
          (occBefore (some sampleEntry :: []) 0) sampleEntry)) :=
  ⟨by decide,
    (filled_rank_token ("P") ("202511") ("D")).1 (some sampleEntry :: []) 0 sampleEntry
      (by decide)⟩

/-- C8: on a store with at least one filled slot, individual export attempts
the download of every filled slot in filled order (the attempts list holds
each filled slot's computed filename, in order), adds exactly one
manual-link fallback entry carrying the slot's computed filename for each
trigger that fails, without aborting the remaining attempts, and afterwards
reports the all-triggered status exactly when no trigger failed and the
some-blocked status otherwise. -/
theorem downloadIndividually_spec (filled : List Entry) (pending : List Link)
    (product date diff : String) (trg : Nat → Bool) (objUrl : Entry → String)
    (h : filled ≠ []) :
    downloadIndividually filled pending product date diff trg objUrl =
      some ⟨mapIdxFrom (fun i item => buildFilename product date diff i item) 0 filled,
            manualFor product date diff trg objUrl filled,
            manualFor product date diff trg objUrl filled ++ pending,
            if (manualFor product date diff trg objUrl filled).isEmpty
              then statusAllTriggered else statusSomeBlocked⟩ ∧
    ((manualFor product date diff trg objUrl filled).isEmpty = true ↔
      (mapIdxFrom (fun i item => (i, item)) 0 filled).all (fun pr => trg pr.1) = true) ∧
    statusAllTriggered ≠ statusSomeBlocked :=
  ⟨downloadIndividually_eq filled pending product date diff trg objUrl h,
    manualFor_isEmpty_iff product date diff trg objUrl filled, by decide⟩

/-- C8 witness: one filled slot whose trigger is blocked. -/
theorem downloadIndividually_spec_witness :
    ((sampleEntry :: []) : List Entry) ≠ [] ∧
    downloadIndividually (sampleEntry :: []) [] ("P") ("202511") ("D")
        (fun _ => false) (fun _ => "u") =
      some ⟨mapIdxFrom
              (fun i item => buildFilename ("P") ("202511") ("D") i item) 0
              (sampleEntry :: []),
            manualFor ("P") ("202511") ("D") (fun _ => false) (fun _ => "u")
              (sampleEntry :: []),
            manualFor ("P") ("202511") ("D") (fun _ => false) (fun _ => "u")
              (sampleEntry :: []) ++ [],
            if (manualFor ("P") ("202511") ("D") (fun _ => false) (fun _ => "u")
                  (sampleEntry :: [])).isEmpty
              then statusAllTriggered else statusSomeBlocked⟩ :=
  ⟨by decide,
    (downloadIndividually_spec (sampleEntry :: []) [] ("P") ("202511") ("D")
      (fun _ => false) (fun _ => "u") (by decide)).1⟩

/-- C9 counterexample: a pending link whose name equals the archive name of
a subsequent zip export is removed and replaced by the fresh archive link,
so the list is not append-only under archive export. -/
theorem pendingLinks_append_only_cex :
    collidingLink ∈ (collidingLink :: [] : List Link) ∧
    (downloadZip (sampleEntry :: []) (collidingLink :: []) ("A") ("1") ("B")
      ("u2") true).isSome = true ∧
    zipPendingAfterOf (downloadZip (sampleEntry :: []) (collidingLink :: []) ("A") ("1")
        ("B") ("u2") true) = (⟨("A_1_B.zip"), ("u2")⟩ :: []) ∧
    collidingLink ∉ zipPendingAfterOf (downloadZip (sampleEntry :: [])
      (collidingLink :: []) ("A") ("1") ("B") ("u2") true) := by
  decide

/-- C9 (amended): the pending-manual-links list only ever grows, except that
the explicit clear action empties it and that an archive export first drops
a previously stored link carrying the same name as the new archive link
before prepending the new one; an individual export prepends its manual
fallbacks and preserves every existing entry. -/
theorem pendingLinks_policy (filled : List Entry) (pending : List Link)
    (product date diff zipUrl : String) (autoOk : Bool) (trg : Nat → Bool)
    (objUrl : Entry → String) (h : filled ≠ []) :
    (∀ l ∈ pending,
      l.name ≠ normalize product ++ "_" ++ date ++ "_" ++ normalize diff ++ ".zip" →
      l ∈ zipPendingAfterOf (downloadZip filled pending product date diff zipUrl autoOk)) ∧
    (∀ l ∈ pending,
      l ∈ indivPendingAfterOf (downloadIndividually filled pending product date diff trg objUrl)) ∧
    indivPendingAfterOf (downloadIndividually filled pending product date diff trg objUrl) =
      manualFor product date diff trg objUrl filled ++ pending ∧
    clearLinks pending = [] := by
  refine ⟨?_, ?_, ?_, rfl⟩
  · intro l hl hname
    rw [downloadZip_eq filled pending product date diff zipUrl autoOk h]
    simp only [zipPendingAfterOf]
    apply List.mem_cons_of_mem
    rw [List.mem_filter]
    refine ⟨hl, ?_⟩
    simp [hname]
  · intro l hl
    rw [downloadIndividually_eq filled pending product date diff trg objUrl h]
    simp only [indivPendingAfterOf]
    exact List.mem_append_right _ hl
  · rw [downloadIndividually_eq filled pending product date diff trg objUrl h]
    rfl

/-- C9 witness: a differently named pending link survives an archive
export. -/
theorem pendingLinks_policy_witness :
    ((sampleEntry :: []) : List Entry) ≠ [] ∧
    unrelatedLink ∈ (unrelatedLink :: [] : List Link) ∧
    unrelatedLink.name ≠ normalize ("P") ++ "_" ++ "202511" ++ "_" ++ normalize ("D") ++ ".zip" ∧
    unrelatedLink ∈ zipPendingAfterOf (downloadZip (sampleEntry :: [])
      (unrelatedLink :: []) ("P") ("202511") ("D") ("u") true) :=
  ⟨by decide, by decide, by decide,
    (pendingLinks_policy (sampleEntry :: []) (unrelatedLink :: []) ("P") ("202511") ("D")
      ("u") true (fun _ => true) (fun _ => "u") (by decide)).1 unrelatedLink
      (by decide) (by decide)⟩

/-- C10: for a fixed nonempty filled sequence and naming parameters, the
filename preview list, the archive entry paths, and the filenames used for
the individual download attempts are the same list, and its i-th element is
buildFilename applied to i and the i-th filled entry. -/
theorem export_names_agree (filled : List Entry) (pending : List Link)
    (product date diff : String) (trg : Nat → Bool) (objUrl : Entry → String)
    (zipUrl : String) (autoOk : Bool) (h : filled ≠ []) :
    zipEntriesOf (downloadZip filled pending product date diff zipUrl autoOk) =
      computeFinalNames product date diff filled ∧
    indivAttemptsOf (downloadIndividually filled pending product date diff trg objUrl) =
      computeFinalNames product date diff filled ∧
    (∀ i item, filled.get? i = some item →
      (computeFinalNames product date diff filled).get? i =
        some (buildFilename product date diff i item)) := by
  refine ⟨?_, ?_, ?_⟩
  · rw [downloadZip_eq filled pending product date diff zipUrl autoOk h]
    rfl
  · rw [downloadIndividually_eq filled pending product date diff trg objUrl h]
    rfl
  · intro i item hi
    unfold computeFinalNames
    rw [mapIdxFrom_get?, hi]
    simp

/-- The slot-store invariant: ten slots, every occupied identifier below the
identifier supply, and distinct occupied positions holding distinct
identifiers. -/
def storeInv (st : Store) : Prop :=
  st.slots.length = 10 ∧
  (∀ i e, st.slots.get? i = some (some e) → e.id < st.nextId) ∧
  (∀ i j e1 e2, i ≠ j → st.slots.get? i = some (some e1) →
    st.slots.get? j = some (some e2) → e1.id ≠ e2.id)

theorem replicate_none_get? :
    ∀ (n i : Nat), (List.replicate n (none : Option Entry)).get? i = some none ∨
      (List.replicate n (none : Option Entry)).get? i = none := by
  intro n
  induction n with
  | zero => intro i; right; rfl
  | succ n ih =>
    intro i
    cases i with
    | zero => left; rfl
    | succ i => exact ih i

theorem storeInv_init : storeInv initStore := by
  refine ⟨by decide, ?_, ?_⟩
  · intro i e h
    have h3 : (List.replicate 10 (none : Option Entry)).get? i = some (some e) := h
    rcases replicate_none_get? 10 i with h2 | h2 <;> rw [h2] at h3 <;> simp at h3
  · intro i j e1 e2 _ h1 _
    have h3 : (List.replicate 10 (none : Option Entry)).get? i = some (some e1) := h1
    rcases replicate_none_get? 10 i with h2 | h2 <;> rw [h2] at h3 <;> simp at h3

theorem handleRemove_get? (slots : List (Option Entry)) (idx i : Nat) :
    (handleRemove slots idx).get? i =
      (slots.get? i).map (fun item => if i = idx then none else item) := by
  unfold handleRemove
  rw [mapIdxFrom_get?]
  simp

theorem storeInv_remove (st : Store) (idx : Nat) (h : storeInv st) :
    storeInv { st with slots := handleRemove st.slots idx } := by
  obtain ⟨hlen, hbound, hdist⟩ := h
  have hmem : ∀ i e, (handleRemove st.slots idx).get? i = some (some e) →
      st.slots.get? i = some (some e) := by
    intro i e hi
    rw [handleRemove_get? st.slots idx i] at hi
    cases hs : st.slots.get? i with
    | none => rw [hs] at hi; simp at hi
    | some s =>
      rw [hs] at hi
      simp only [Option.map_some'] at hi
      have hval := Option.some.inj hi
      by_cases hix : i = idx
      · rw [if_pos hix] at hval
        exact absurd hval (by simp)
      · rw [if_neg hix] at hval
        rw [hval]
  refine ⟨?_, ?_, ?_⟩
  · show (handleRemove st.slots idx).length = 10
    unfold handleRemove
    rw [mapIdxFrom_length]
    exact hlen
  · intro i e hi
    exact hbound i e (hmem i e hi)
  · intro i j e1 e2 hij h1 h2
    exact hdist i j e1 e2 hij (hmem i e1 h1) (hmem j e2 h2)

theorem swapFiles_eq (slots : List (Option Entry)) (f t : Nat) :
    swapFiles slots (some f) t =
      if f = t then slots
      else jsSet (jsSet slots f (jsGet slots t)) t (jsGet slots f) := rfl

theorem jsSet_of_lt (l : List (Option Entry)) (i : Nat) (v : Option Entry)
    (h : i < l.length) : jsSet l i v = l.set i v := by
  unfold jsSet
  rw [if_pos h]

theorem jsGet_get? (l : List (Option Entry)) (i : Nat) (h : i < l.length) :
    l.get? i = some (jsGet l i) := by
  unfold jsGet
  rw [List.get?_eq_get h]
  rfl

theorem swapFiles_get? (slots : List (Option Entry)) (f t : Nat)
    (hf : f < slots.length) (ht : t < slots.length) (hft : f ≠ t) (i : Nat) :
    (swapFiles slots (some f) t).get? i =
      if i = t then some (jsGet slots f)
      else if i = f then some (jsGet slots t)
      else slots.get? i := by
  rw [swapFiles_eq, if_neg hft]
  rw [jsSet_of_lt slots f _ hf]
  rw [jsSet_of_lt _ t _ (by rw [List.length_set]; exact ht)]
  by_cases hit : i = t
  · subst hit
    rw [if_pos rfl]
    exact get?_set_self _ _ _ (by rw [List.length_set]; exact ht)
  · rw [if_neg hit, get?_set_other _ _ _ _ (Ne.symm hit)]
    by_cases hif : i = f
    · subst hif
      rw [if_pos rfl]
      exact get?_set_self _ _ _ hf
    · rw [if_neg hif, get?_set_other _ _ _ _ (Ne.symm hif)]

theorem storeInv_swap (st : Store) (f? : Option Nat) (t : Nat)
    (hv : validOp (.swap f? t) = true) (h : storeInv st) :
    storeInv { st with slots := swapFiles st.slots f? t } := by
  obtain ⟨hlen, hbound, hdist⟩ := h
  cases f? with
  | none => exact ⟨hlen, hbound, hdist⟩
  | some f =>
    by_cases hft : f = t
    · have heq : swapFiles st.slots (some f) t = st.slots := by
        rw [swapFiles_eq, if_pos hft]
      rw [heq]
      exact ⟨hlen, hbound, hdist⟩
    · have hf : f < 10 := by
        simp only [validOp, Bool.and_eq_true, decide_eq_true_eq] at hv
        exact hv.1
      have ht : t < 10 := by
        simp only [validOp, Bool.and_eq_true, decide_eq_true_eq] at hv
        exact hv.2
      have hf2 : f < st.slots.length := by omega
      have ht2 : t < st.slots.length := by omega
      have hchar := swapFiles_get? st.slots f t hf2 ht2 hft
      have hmem : ∀ i e, (swapFiles st.slots (some f) t).get? i = some (some e) →
          st.slots.get? (if i = t then f else if i = f then t else i) = some (some e) := by
        intro i e hi
        rw [hchar i] at hi
        by_cases hit : i = t
        · rw [if_pos hit] at hi ⊢
          have := Option.some.inj hi
          rw [jsGet_get? st.slots f hf2, this]
        · rw [if_neg hit] at hi ⊢
          by_cases hif : i = f
          · rw [if_pos hif] at hi ⊢
            have := Option.some.inj hi
            rw [jsGet_get? st.slots t ht2, this]
          · rw [if_neg hif] at hi ⊢
            exact hi
      refine ⟨?_, ?_, ?_⟩
      · show (swapFiles st.slots (some f) t).length = 10
        rw [swapFiles_eq, if_neg hft]
        rw [jsSet_of_lt st.slots f _ hf2]
        rw [jsSet_of_lt _ t _ (by rw [List.length_set]; exact ht2)]
        rw [List.length_set, List.length_set]
        exact hlen
      · intro i e hi
        exact hbound _ e (hmem i e hi)
      · intro i j e1 e2 hij h1 h2
        refine hdist _ _ e1 e2 ?_ (hmem i e1 h1) (hmem j e2 h2)
        split_ifs <;> omega

theorem set_get?_cases (l : List (Option Entry)) (t i : Nat) (v : Option Entry)
    (ht : t < l.length) :
    (l.set t v).get? i = if i = t then some v else l.get? i := by
  by_cases hit : i = t
  · subst hit
    rw [if_pos rfl]
    exact get?_set_self _ _ _ ht
  · rw [if_neg hit]
    exact get?_set_other _ _ _ _ (Ne.symm hit)

theorem storeInv_add (st : Store) (fs : List FileRef) (t? : Option Nat)
    (pv : FileRef → String × Bool) (hv : validOp (.add fs t? pv) = true)
    (h : storeInv st) : storeInv (addFiles st fs t? pv) := by
  obtain ⟨hlen, hbound, hdist⟩ := h
  unfold addFiles
  by_cases himg : ((fs.filter imageLike).take 10).isEmpty
  · rw [if_pos himg]
    exact ⟨hlen, hbound, hdist⟩
  · rw [if_neg himg]
    have hplen : 1 ≤ (prepare st.nextId pv ((fs.filter imageLike).take 10)).length := by
      rw [prepare_length]
      cases hc : (fs.filter imageLike).take 10 with
      | nil => rw [hc] at himg; exact absurd rfl himg
      | cons f0 rest => simp
    cases t? with
    | some t =>
      have ht : t < 10 := by
        simp only [validOp, decide_eq_true_eq] at hv
        exact hv
      have ht2 : t < st.slots.length := by omega
      obtain ⟨f0, rest, hc⟩ : ∃ f0 rest, (fs.filter imageLike).take 10 = f0 :: rest := by
        cases hc : (fs.filter imageLike).take 10 with
        | nil => rw [hc] at himg; exact absurd rfl himg
        | cons f0 rest => exact ⟨f0, rest, rfl⟩
      have hhead : (prepare st.nextId pv ((fs.filter imageLike).take 10)).head? =
          some ⟨st.nextId, f0, (pv f0).1, (pv f0).2⟩ := by
        rw [hc]
        rfl
      simp only []
      rw [hhead]
      rw [show jsSet st.slots t (some ⟨st.nextId, f0, (pv f0).1, (pv f0).2⟩) =
          st.slots.set t (some ⟨st.nextId, f0, (pv f0).1, (pv f0).2⟩) from
        jsSet_of_lt st.slots t _ ht2]
      have hchar := fun i => set_get?_cases st.slots t i
        (some ⟨st.nextId, f0, (pv f0).1, (pv f0).2⟩) ht2
      refine ⟨?_, ?_, ?_⟩
      · show (st.slots.set t _).length = 10
        rw [List.length_set]
        exact hlen
      · intro i e hi
        rw [hchar i] at hi
        by_cases hit : i = t
        · rw [if_pos hit] at hi
          have he := Option.some.inj (Option.some.inj hi)
          show e.id < st.nextId + _
          rw [← he]
          simp only []
          omega
        · rw [if_neg hit] at hi
          have := hbound i e hi
          show e.id < st.nextId + _
          omega
      · intro i j e1 e2 hij h1 h2
        rw [hchar i] at h1
        rw [hchar j] at h2
        by_cases hit : i = t
        · rw [if_pos hit] at h1
          have hjt : ¬ j = t := by omega
          rw [if_neg hjt] at h2
          have he1 := Option.some.inj (Option.some.inj h1)
          have := hbound j e2 h2
          rw [← he1]
          simp only []
          omega
        · rw [if_neg hit] at h1
          by_cases hjt : j = t
          · rw [if_pos hjt] at h2
            have he2 := Option.some.inj (Option.some.inj h2)
            have := hbound i e1 h1
            rw [← he2]
            simp only []
            omega
          · rw [if_neg hjt] at h2
            exact hdist i j e1 e2 hij h1 h2
    | none =>
      simp only []
      refine ⟨?_, ?_, ?_⟩
      · show (fillEmpty st.slots _).length = 10
        rw [fillEmpty_length]
        exact hlen
      · intro i e hi
        have hi2 := hi
        rw [fillEmpty_get?] at hi2
        cases hs : st.slots.get? i with
        | none => rw [hs] at hi2; simp at hi2
        | some s =>
          rw [hs] at hi2
          have hval := Option.some.inj hi2
          cases s with
          | some e0 =>
            have he := Option.some.inj hval
            have := hbound i e0 (by rw [hs])
            show e.id < st.nextId + _
            rw [← he]
            omega
          | none =>
            have hkid := prepare_id_get? pv hval
            have hklt := get?_some_lt _ _ _ hval
            show e.id < st.nextId + _
            rw [prepare_length] at hklt
            rw [hkid, prepare_length]
            omega
      · intro i j e1 e2 hij h1 h2
        rw [fillEmpty_get?] at h1 h2
        cases hsi : st.slots.get? i with
        | none => rw [hsi] at h1; simp at h1
        | some si =>
          cases hsj : st.slots.get? j with
          | none => rw [hsj] at h2; simp at h2
          | some sj =>
            rw [hsi] at h1
            rw [hsj] at h2
            have hv1 := Option.some.inj h1
            have hv2 := Option.some.inj h2
            cases si with
            | some e1o =>
              cases sj with
              | some e2o =>
                have he1 := Option.some.inj hv1
                have he2 := Option.some.inj hv2
                rw [← he1, ← he2]
                exact hdist i j e1o e2o hij (by rw [hsi]) (by rw [hsj])
              | none =>
                have hb1 := hbound i e1o (by rw [hsi])
                have he1 := Option.some.inj hv1
                have hkid := prepare_id_get? pv hv2
                rw [← he1, hkid]
                omega
            | none =>
              cases sj with
              | some e2o =>
                have hb2 := hbound j e2o (by rw [hsj])
                have he2 := Option.some.inj hv2
                have hkid := prepare_id_get? pv hv1
                rw [← he2, hkid]
                omega
              | none =>
                have hk1 := prepare_id_get? pv hv1
                have hk2 := prepare_id_get? pv hv2
                rw [hk1, hk2]
                rcases Nat.lt_trichotomy i j with hlt | heq | hgt
                · have := emptiesBefore_lt_of_none st.slots i j hlt (by rw [hsi])
                  omega
                · exact absurd heq hij
                · have := emptiesBefore_lt_of_none st.slots j i hgt (by rw [hsj])
                  omega

theorem storeInv_applyOp (st : Store) (op : Op) (hv : validOp op = true)
    (h : storeInv st) : storeInv (applyOp st op) := by
  cases op with
  | add fs t? pv => exact storeInv_add st fs t? pv hv h
  | remove i => exact storeInv_remove st i h
  | swap f? t => exact storeInv_swap st f? t hv h

theorem storeInv_run :
    ∀ (ops : List Op) (st : Store), storeInv st → (∀ op ∈ ops, validOp op = true) →
      storeInv (run st ops) := by
  intro ops
  induction ops with
  | nil => intro st h _; exact h
  | cons op rest ih =>
    intro st h hv
    exact ih (applyOp st op)
      (storeInv_applyOp st op (hv op (List.mem_cons_self op rest)) h)
      (fun o ho => hv o (List.mem_cons_of_mem op ho))

/-- C6 counterexample: a targeted add at the out-of-range slot index 10
grows the files array to 11 positions (a JS write one past the end extends
the array), violating the exactly-10-positions invariant for arbitrary
argument values. -/
theorem slotStore_inv_cex :
    (applyOp initStore (Op.add (sampleFile :: []) (some 10) samplePreview)).slots.length
      = 11 := by
  decide

/-- C6 (amended): after any sequence of add-files, remove-slot and
swap-slots operations starting from the all-empty store, provided every
targeted-add slot index and swap slot index is below 10 (remove and untargeted
add are unrestricted), the slot store has exactly 10 positions and no two
occupied positions hold entries with the same identifier. -/
theorem slotStore_inv (ops : List Op) (hv : ∀ op ∈ ops, validOp op = true) :
    (run initStore ops).slots.length = 10 ∧
    (∀ i j e1 e2, i ≠ j → (run initStore ops).slots.get? i = some (some e1) →
      (run initStore ops).slots.get? j = some (some e2) → e1.id ≠ e2.id) :=
  have h := storeInv_run ops initStore storeInv_init hv
  ⟨h.1, h.2.2⟩

/-- A valid sample operation sequence for the C6 witness. -/
def sampleOps : List Op :=
  Op.add (sampleFile :: []) none samplePreview :: Op.swap (some 0) 1 ::
    Op.remove 1 :: []

/-- C6 witness: the amended invariant holds after a concrete valid
sequence. -/
theorem slotStore_inv_witness :
    (∀ op ∈ sampleOps, validOp op = true) ∧
    ((run initStore sampleOps).slots.length = 10 ∧
      (∀ i j e1 e2, i ≠ j → (run initStore sampleOps).slots.get? i = some (some e1) →
        (run initStore sampleOps).slots.get? j = some (some e2) → e1.id ≠ e2.id)) :=
  ⟨by decide, slotStore_inv sampleOps (by decide)⟩

/-- C10 witness: the archive paths equal the preview list on a one-entry
store. -/
theorem export_names_agree_witness :
    ((sampleEntry :: []) : List Entry) ≠ [] ∧
    zipEntriesOf (downloadZip (sampleEntry :: []) [] ("P") ("202511") ("D") ("u") true) =
      computeFinalNames ("P") ("202511") ("D") (sampleEntry :: []) :=
  ⟨by decide,
    (export_names_agree (sampleEntry :: []) [] ("P") ("202511") ("D")
      (fun _ => true) (fun _ => "u") ("u") true (by decide)).1⟩

end Renamer
